import Mathlib

/-!
Verification of the nginx log analysis pipeline (`nginx_log_chat.py`).

The Python source is shallowly embedded here:
* `matchFrom` / `search` model `LOG_PATTERN.search` (Python `re.search` with
  its leftmost-start, greedy-with-backtracking semantics specialised to this
  concrete pattern);
* `parse_nginx_logs` models the loader (file snapshot, `[-limit:]` slice,
  per-line search, silent drop of non-matching lines, empty result on
  `FileNotFoundError`);
* `value_counts`, `generate_summary`, `detect_anomalies` model the pandas
  based aggregation (value counts in descending order, ties in first-seen
  order of the unique values);
* `displayAnomalies` / `displayTables` model the keyword dispatch in the
  main loop.

The spec side (§4.1 grammar) is transcribed separately as `render`/`validB`:
a line conforms to the grammar exactly when it is `render r` for a record
`r` with `validB r = true`.
-/

namespace NginxLogChat

/-- Python `\s` (ASCII part): the whitespace class used by `\S` in the regex. -/
def isWS (c : Char) : Bool :=
  c == ' ' || c == '\t' || c == '\n' || c == '\r' || c == '\x0b' || c == '\x0c'

/-- Negation of `isWS`: the character class `\S` of the regex. -/
def nws (c : Char) : Bool := !isWS c

/-- The character class `\d` of the regex (ASCII digits). -/
def isDigitC (c : Char) : Bool := '0' ≤ c && c ≤ '9'

/-- Character class `[^"]` used for the referrer and agent groups. -/
def noq (c : Char) : Bool := !(c == '"')

/-- Character class `[^\]]` used for the date group. -/
def nrb (c : Char) : Bool := !(c == ']')

/-- The ten named groups of `LOG_PATTERN`, i.e. the dictionary produced by
`m.groupdict()` and appended to the entry list. -/
structure AccessRecord where
  ip : List Char
  user : List Char
  date : List Char
  method : List Char
  url : List Char
  protocol : List Char
  status : List Char
  size : List Char
  referrer : List Char
  agent : List Char
deriving DecidableEq

/-- Match one-or-more characters of class `p` (the regex fragments `\S+`,
`[^\]]+`, `\d+`): the greedy run together with the remaining input.  For all
these fragments the pattern continues with a character outside the class, so
the greedy maximal run is the only viable length and no backtracking into the
run is needed. -/
def tokP (p : Char → Bool) (s : List Char) : Option (List Char × List Char) :=
  match s.takeWhile p with
  | [] => none
  | a :: as => some (a :: as, s.dropWhile p)

/-- Match one literal character. -/
def lit (c : Char) : List Char → Option (List Char)
  | [] => none
  | x :: xs => if x = c then some xs else none

/-- The group `(?P<size>\d+|-)`: the alternation tries `\d+` first and the
literal `-` second; on an input starting with a digit the dash branch can
never apply, so the two branches are decided by the first character. -/
def parseSize (s : List Char) : Option (List Char × List Char) :=
  match s with
  | [] => none
  | c :: cs => if c = '-' then some (['-'], cs) else tokP isDigitC (c :: cs)

/-- The group `(?P<status>\d{3})`: exactly three digit characters. -/
def status3 (s : List Char) : Option (List Char × List Char) :=
  match s with
  | a :: b :: c :: t =>
    if isDigitC a && isDigitC b && isDigitC c then some ([a, b, c], t) else none
  | _ => none

/-- The tail of the pattern after the closing quote of the request line:
`␣(?P<status>\d{3})␣(?P<size>\d+|-)␣"(?P<referrer>[^"]*)"␣"(?P<agent>[^"]*)"`.
Returns `(status, size, referrer, agent)`. -/
def matchEnd (s : List Char) : Option (List Char × List Char × List Char × List Char) :=
  Option.bind (lit ' ' s) fun t0 =>
  Option.bind (status3 t0) fun pSt =>
  Option.bind (lit ' ' pSt.2) fun t2 =>
  Option.bind (parseSize t2) fun pSz =>
  Option.bind (lit ' ' pSz.2) fun t3 =>
  Option.bind (lit '"' t3) fun t4 =>
  Option.bind (lit '"' (t4.dropWhile noq)) fun t5 =>
  Option.bind (lit ' ' t5) fun t6 =>
  Option.bind (lit '"' t6) fun t7 =>
  Option.bind (lit '"' (t7.dropWhile noq)) fun _ =>
  some (pSt.1, pSz.1, t4.takeWhile noq, t7.takeWhile noq)

/-- Backtracking over the split point of `(?P<protocol>\S+)"`.  `R` is the
greedy maximal `\S`-run at the current position of `s`; the regex engine
tries the longest protocol first, i.e. the largest index `j` of `R` holding
a `"`, and on failure of the rest of the pattern retries with the next
smaller split point.  The argument is the candidate index; `0` is excluded
because the protocol group needs at least one character. -/
def protoLoop (R s : List Char) :
    Nat → Option (List Char × List Char × List Char × List Char × List Char)
  | 0 => none
  | n + 1 =>
    if R[n + 1]? = some '"' then
      match matchEnd (s.drop (n + 2)) with
      | some q => some (R.take (n + 1), q)
      | none => protoLoop R s n
    else protoLoop R s n

/-- The head of the pattern: `(?P<ip>\S+) - (?P<user>\S+) \[`.  Returns
`(ip, user, rest)`. -/
def matchHead (s0 : List Char) : Option (List Char × List Char × List Char) :=
  Option.bind (tokP nws s0) fun pIp =>
  Option.bind (lit ' ' pIp.2) fun s1 =>
  Option.bind (lit '-' s1) fun s2 =>
  Option.bind (lit ' ' s2) fun s3 =>
  Option.bind (tokP nws s3) fun pUser =>
  Option.bind (lit ' ' pUser.2) fun s4 =>
  Option.bind (lit '[' s4) fun s5 =>
  some (pIp.1, pUser.1, s5)

/-- The middle of the pattern: `(?P<date>[^\]]+)\] "(?P<method>\S+) `.
Returns `(date, method, rest)`. -/
def matchMid (s5 : List Char) : Option (List Char × List Char × List Char) :=
  Option.bind (tokP nrb s5) fun pDate =>
  Option.bind (lit ']' pDate.2) fun s6 =>
  Option.bind (lit ' ' s6) fun s7 =>
  Option.bind (lit '"' s7) fun s8 =>
  Option.bind (tokP nws s8) fun pMeth =>
  Option.bind (lit ' ' pMeth.2) fun s9 =>
  some (pDate.1, pMeth.1, s9)

/-- The rest of the pattern from the url group on:
`(?P<url>\S+) (?P<protocol>\S+)" ...`.  Returns
`(url, protocol, status, size, referrer, agent)`. -/
def matchTail (s9 : List Char) :
    Option (List Char × List Char × List Char × List Char × List Char × List Char) :=
  Option.bind (tokP nws s9) fun pUrl =>
  Option.bind (lit ' ' pUrl.2) fun s10 =>
  Option.bind (protoLoop (s10.takeWhile nws) s10 ((s10.takeWhile nws).length - 1)) fun q =>
  some (pUrl.1, q)

/-- Attempt of `LOG_PATTERN` at one fixed start position (the anchored step
of `re.search`).  Every `\S+` / `[^\]]+` group is followed by a character
outside its class, so only its maximal run is viable; the only genuine
backtracking point of the whole pattern is the protocol split handled by
`protoLoop`. -/
def matchFrom (s0 : List Char) : Option AccessRecord :=
  Option.bind (matchHead s0) fun h =>
  Option.bind (matchMid h.2.2) fun m =>
  Option.bind (matchTail m.2.2) fun t =>
  some { ip := h.1, user := h.2.1, date := m.1, method := m.2.1,
         url := t.1, protocol := t.2.1, status := t.2.2.1, size := t.2.2.2.1,
         referrer := t.2.2.2.2.1, agent := t.2.2.2.2.2 }

/-- `LOG_PATTERN.search`: try `matchFrom` at every start position, leftmost
first. -/
def search : List Char → Option AccessRecord
  | [] => matchFrom []
  | c :: cs =>
    match matchFrom (c :: cs) with
    | some r => some r
    | none => search cs

/-- The literal line format of the §4.1 grammar: render the ten fields back
into a log line.  A line satisfies the grammar exactly when it equals
`render r` for a record `r` satisfying `validB`. -/
def render (r : AccessRecord) : List Char :=
  r.ip ++ ' ' :: '-' :: ' ' ::
  (r.user ++ ' ' :: '[' ::
  (r.date ++ ']' :: ' ' :: '"' ::
  (r.method ++ ' ' ::
  (r.url ++ ' ' ::
  (r.protocol ++ '"' :: ' ' ::
  (r.status ++ ' ' ::
  (r.size ++ ' ' :: '"' ::
  (r.referrer ++ '"' :: ' ' :: '"' ::
  (r.agent ++ ['"'])))))))))

/-- A non-empty all-`\S` token (the grammar's `<addr>`, `<user>`, `<method>`,
`<url>`, `<protocol>`). -/
def nwsTok (t : List Char) : Bool := !t.isEmpty && t.all nws

/-- The side conditions of the §4.1 grammar on the ten fields. -/
def validB (r : AccessRecord) : Bool :=
  nwsTok r.ip && nwsTok r.user &&
  (!r.date.isEmpty && r.date.all nrb) &&
  nwsTok r.method && nwsTok r.url && nwsTok r.protocol &&
  (r.status.length == 3 && r.status.all isDigitC) &&
  (r.size == ['-'] || (!r.size.isEmpty && r.size.all isDigitC)) &&
  r.referrer.all noq && r.agent.all noq

/-- A sample record used for concrete witnesses. -/
def sampleRec : AccessRecord :=
  { ip := "1.1.1.1".data, user := "-".data, date := "d".data,
    method := "GET".data, url := "/a".data, protocol := "HTTP/1.1".data,
    status := "200".data, size := "10".data, referrer := "-".data,
    agent := "-".data }

example : validB sampleRec = true := by decide

example : search (render sampleRec) = some sampleRec := by decide

example : search "1.1.1.1 - - [d] \"GET /a HTTP/1.1\" 200 10 \"-\" \"-\"".data
    = some sampleRec := by decide

example : search "malformed line".data = none := by decide

example : search "1.1.1.1 - - [d] \"GET /a HTTP/1.1\" 2000 10 \"-\" \"-\"".data
    = none := by decide

example : search "1.1.1.1 - - [d] \"GET /a\" 200 10 \"-\" \"-\"".data = none := by decide

example : search "a - b [d] \"M U A\"B\" 200 1 \"r\" \"x\"".data
    = some { ip := "a".data, user := "b".data, date := "d".data, method := "M".data,
             url := "U".data, protocol := "A\"B".data, status := "200".data,
             size := "1".data, referrer := "r".data, agent := "x".data } := by decide

example : search "a - b [d] \"GETX\" 200 1 \"r\" \"x\"".data = none := by decide

example : search "a - b [de]f] \"M U P\" 200 1 \"r\" \"x\"".data = none := by decide

example : search "a - b [d] \"M U A\"B\" C\" 200 1 \"r\" \"x\"".data = none := by decide

/-! ### Evaluation lemmas for the matcher -/

lemma takeWhile_app (p : Char → Bool) (t : List Char) (c : Char) {rest : List Char}
    (h2 : ∀ x ∈ t, p x = true) (hc : p c = false) :
    (t ++ c :: rest).takeWhile p = t := by
  induction t with
  | nil => simp [List.takeWhile, hc]
  | cons a as ih =>
      have ha : p a = true := h2 a (by simp)
      simp only [List.cons_append, List.takeWhile, ha]
      simp [ih fun x hx => h2 x (by simp [hx])]

lemma dropWhile_app (p : Char → Bool) (t : List Char) (c : Char) {rest : List Char}
    (h2 : ∀ x ∈ t, p x = true) (hc : p c = false) :
    (t ++ c :: rest).dropWhile p = c :: rest := by
  induction t with
  | nil => simp [List.dropWhile, hc]
  | cons a as ih =>
      have ha : p a = true := h2 a (by simp)
      simp only [List.cons_append, List.dropWhile, ha]
      exact ih fun x hx => h2 x (by simp [hx])

lemma tokP_app (p : Char → Bool) (t : List Char) (c : Char) {rest : List Char}
    (h1 : t ≠ []) (h2 : ∀ x ∈ t, p x = true) (hc : p c = false) :
    tokP p (t ++ c :: rest) = some (t, c :: rest) := by
  unfold tokP
  rw [takeWhile_app p t c h2 hc, dropWhile_app p t c h2 hc]
  cases t with
  | nil => exact absurd rfl h1
  | cons a as => rfl

lemma lit_cons (c : Char) (rest : List Char) : lit c (c :: rest) = some rest := by
  simp [lit]

lemma nwsTok_iff (t : List Char) :
    nwsTok t = true ↔ t ≠ [] ∧ ∀ x ∈ t, nws x = true := by
  simp [nwsTok, List.all_eq_true, List.isEmpty_iff]

lemma matchHead_eval (i u rest : List Char)
    (hi : nwsTok i = true) (hu : nwsTok u = true) :
    matchHead (i ++ ' ' :: '-' :: ' ' :: (u ++ ' ' :: '[' :: rest))
      = some (i, u, rest) := by
  obtain ⟨hi1, hi2⟩ := (nwsTok_iff i).1 hi
  obtain ⟨hu1, hu2⟩ := (nwsTok_iff u).1 hu
  unfold matchHead
  rw [tokP_app nws i ' ' hi1 hi2 (by decide)]
  simp only [Option.some_bind, lit_cons]
  rw [tokP_app nws u ' ' hu1 hu2 (by decide)]
  simp only [Option.some_bind, lit_cons]

lemma matchMid_eval (d m rest : List Char)
    (hd1 : d ≠ []) (hd2 : ∀ x ∈ d, nrb x = true) (hm : nwsTok m = true) :
    matchMid (d ++ ']' :: ' ' :: '"' :: (m ++ ' ' :: rest))
      = some (d, m, rest) := by
  obtain ⟨hm1, hm2⟩ := (nwsTok_iff m).1 hm
  unfold matchMid
  rw [tokP_app nrb d ']' hd1 hd2 (by decide)]
  simp only [Option.some_bind, lit_cons]
  rw [tokP_app nws m ' ' hm1 hm2 (by decide)]
  simp only [Option.some_bind, lit_cons]

lemma isDigitC_ne_dash {c : Char} (h : isDigitC c = true) : c ≠ '-' := by
  intro he
  subst he
  simp [isDigitC] at h

lemma parseSize_eval (sz : List Char) (c : Char) {rest : List Char}
    (hsz : sz = ['-'] ∨ (sz ≠ [] ∧ ∀ x ∈ sz, isDigitC x = true))
    (hc : isDigitC c = false) :
    parseSize (sz ++ c :: rest) = some (sz, c :: rest) := by
  rcases hsz with h | ⟨h1, h2⟩
  · subst h
    simp [parseSize]
  · cases sz with
    | nil => exact absurd rfl h1
    | cons a as =>
        have ha : isDigitC a = true := h2 a (by simp)
        have : parseSize ((a :: as) ++ c :: rest)
            = tokP isDigitC ((a :: as) ++ c :: rest) := by
          simp only [List.cons_append, parseSize, if_neg (isDigitC_ne_dash ha)]
        rw [this, tokP_app isDigitC (a :: as) c (by simp) h2 hc]

lemma status3_eval (st u : List Char)
    (hlen : st.length = 3) (hdig : ∀ x ∈ st, isDigitC x = true) :
    status3 (st ++ u) = some (st, u) := by
  match st, hlen with
  | [a, b, c], _ =>
    have hda : isDigitC a = true := hdig a (by simp)
    have hdb : isDigitC b = true := hdig b (by simp)
    have hdc : isDigitC c = true := hdig c (by simp)
    simp [status3, hda, hdb, hdc]

lemma matchEnd_eval (st sz rf ag rest : List Char)
    (hlen : st.length = 3) (hdig : ∀ x ∈ st, isDigitC x = true)
    (hsz : sz = ['-'] ∨ (sz ≠ [] ∧ ∀ x ∈ sz, isDigitC x = true))
    (hrf : ∀ x ∈ rf, noq x = true) (hag : ∀ x ∈ ag, noq x = true) :
    matchEnd (' ' :: (st ++ ' ' :: (sz ++ ' ' :: '"' ::
        (rf ++ '"' :: ' ' :: '"' :: (ag ++ '"' :: rest)))))
      = some (st, sz, rf, ag) := by
  unfold matchEnd
  rw [lit_cons]
  simp only [Option.some_bind]
  rw [status3_eval st _ hlen hdig]
  simp only [Option.some_bind, lit_cons]
  rw [parseSize_eval sz ' ' hsz (by decide)]
  simp only [Option.some_bind, lit_cons]
  rw [dropWhile_app noq rf '"' hrf (by decide),
      takeWhile_app noq rf '"' hrf (by decide)]
  simp only [lit_cons, Option.some_bind]
  rw [dropWhile_app noq ag '"' hag (by decide),
      takeWhile_app noq ag '"' hag (by decide)]
  simp only [lit_cons, Option.some_bind]

lemma takeWhile_proto (pr tail : List Char) (hpr : ∀ x ∈ pr, nws x = true) :
    (pr ++ '"' :: ' ' :: tail).takeWhile nws = pr ++ ['"'] := by
  have h : pr ++ '"' :: ' ' :: tail = (pr ++ ['"']) ++ ' ' :: tail := by
    simp
  rw [h, takeWhile_app nws (pr ++ ['"']) ' ' _ (by decide)]
  intro x hx
  rcases List.mem_append.1 hx with h1 | h1
  · exact hpr x h1
  · simp at h1
    subst h1
    decide

lemma protoLoop_eval (pr tail : List Char) (q : List Char × List Char × List Char × List Char)
    (hpr1 : pr ≠ [])
    (hm : matchEnd (' ' :: tail) = some q) :
    protoLoop (pr ++ ['"']) (pr ++ '"' :: ' ' :: tail) ((pr ++ ['"']).length - 1)
      = some (pr, q) := by
  obtain ⟨k, hk⟩ : ∃ k, pr.length = k + 1 := by
    cases hp : pr with
    | nil => exact absurd hp hpr1
    | cons a as => exact ⟨as.length, by simp⟩
  have hlen : (pr ++ ['"']).length - 1 = k + 1 := by simp [hk]
  rw [hlen]
  have hget : (pr ++ ['"'])[k + 1]? = some '"' := by
    rw [← hk, List.getElem?_append_right (Nat.le_refl _)]
    simp
  have hdrop : (pr ++ '"' :: ' ' :: tail).drop (k + 2) = ' ' :: tail := by
    have h2 : pr ++ '"' :: ' ' :: tail = (pr ++ ['"']) ++ ' ' :: tail := by simp
    have h3 : k + 2 = (pr ++ ['"']).length := by simp [hk]
    rw [h2, h3, List.drop_left]
  have htake : (pr ++ ['"']).take (k + 1) = pr := by
    rw [← hk, List.take_left]
  simp only [protoLoop, hget, hdrop, hm, htake]
  simp

lemma matchTail_eval (u pr st sz rf ag rest : List Char)
    (hu : nwsTok u = true) (hpr : nwsTok pr = true)
    (hlen : st.length = 3) (hdig : ∀ x ∈ st, isDigitC x = true)
    (hsz : sz = ['-'] ∨ (sz ≠ [] ∧ ∀ x ∈ sz, isDigitC x = true))
    (hrf : ∀ x ∈ rf, noq x = true) (hag : ∀ x ∈ ag, noq x = true) :
    matchTail (u ++ ' ' :: (pr ++ '"' :: ' ' :: (st ++ ' ' :: (sz ++ ' ' :: '"' ::
        (rf ++ '"' :: ' ' :: '"' :: (ag ++ '"' :: rest))))))
      = some (u, pr, st, sz, rf, ag) := by
  obtain ⟨hu1, hu2⟩ := (nwsTok_iff u).1 hu
  obtain ⟨hp1, hp2⟩ := (nwsTok_iff pr).1 hpr
  unfold matchTail
  rw [tokP_app nws u ' ' hu1 hu2 (by decide)]
  simp only [Option.some_bind, lit_cons]
  rw [takeWhile_proto pr _ hp2,
      protoLoop_eval pr _ (st, sz, rf, ag) hp1
        (matchEnd_eval st sz rf ag rest hlen hdig hsz hrf hag)]
  simp only [Option.some_bind]

/-- Completeness of the anchored matcher on grammar-conforming text: at the
start of `render r` the pattern matches and extracts exactly the fields of
`r`, whatever follows. -/
lemma matchFrom_render (r : AccessRecord) (suf : List Char) (h : validB r = true) :
    matchFrom (render r ++ suf) = some r := by
  simp only [validB, Bool.and_eq_true, Bool.or_eq_true, beq_iff_eq,
    Bool.not_eq_true', List.all_eq_true, Nat.beq_eq_true_eq] at h
  obtain ⟨⟨⟨⟨⟨⟨⟨⟨⟨hip, huser⟩, hdate⟩, hmeth⟩, hurl⟩, hproto⟩, hstat⟩, hsize⟩, href⟩, hag⟩ := h
  have hd1 : r.date ≠ [] := by
    intro he
    rw [he] at hdate
    simp [List.isEmpty_iff] at hdate
  have hd2 : ∀ x ∈ r.date, nrb x = true := hdate.2
  have hst1 : r.status.length = 3 := hstat.1
  have hst2 : ∀ x ∈ r.status, isDigitC x = true := hstat.2
  have hsz : r.size = ['-'] ∨ (r.size ≠ [] ∧ ∀ x ∈ r.size, isDigitC x = true) := by
    rcases hsize with h1 | h1
    · exact Or.inl h1
    · refine Or.inr ⟨?_, h1.2⟩
      intro he
      rw [he] at h1
      simp [List.isEmpty_iff] at h1
  have hS : render r ++ suf
      = r.ip ++ ' ' :: '-' :: ' ' :: (r.user ++ ' ' :: '[' ::
        (r.date ++ ']' :: ' ' :: '"' :: (r.method ++ ' ' ::
        (r.url ++ ' ' :: (r.protocol ++ '"' :: ' ' ::
        (r.status ++ ' ' :: (r.size ++ ' ' :: '"' ::
        (r.referrer ++ '"' :: ' ' :: '"' :: (r.agent ++ '"' :: suf))))))))) := by
    simp [render]
  unfold matchFrom
  rw [hS, matchHead_eval r.ip r.user _ hip huser]
  simp only [Option.some_bind]
  rw [matchMid_eval r.date r.method _ hd1 hd2 hmeth]
  simp only [Option.some_bind]
  rw [matchTail_eval r.url r.protocol r.status r.size r.referrer r.agent suf
        hurl hproto hst1 hst2 hsz href hag]
  simp only [Option.some_bind]

lemma search_of_matchFrom (l : List Char) (r : AccessRecord)
    (h : matchFrom l = some r) : search l = some r := by
  cases l with
  | nil => simpa [search] using h
  | cons c cs => simp [search, h]

/-! ### Soundness of the matcher: inversion lemmas -/

lemma tokP_some {p : Char → Bool} {s t u : List Char}
    (h : tokP p s = some (t, u)) :
    s = t ++ u ∧ t ≠ [] ∧ ∀ x ∈ t, p x = true := by
  unfold tokP at h
  cases htw : s.takeWhile p with
  | nil => rw [htw] at h; simp at h
  | cons a as =>
      rw [htw] at h
      simp only [Option.some.injEq, Prod.mk.injEq] at h
      obtain ⟨h1, h2⟩ := h
      refine ⟨?_, by simp [← h1], ?_⟩
      · rw [← h1, ← h2, ← htw, List.takeWhile_append_dropWhile]
      · intro x hx
        rw [← h1] at hx
        rw [← htw] at hx
        exact List.mem_takeWhile_imp hx

lemma lit_some {c : Char} {s u : List Char} (h : lit c s = some u) :
    s = c :: u := by
  cases s with
  | nil => simp [lit] at h
  | cons x xs =>
      by_cases hx : x = c
      · subst hx
        simp [lit] at h
        rw [h]
      · simp [lit, hx] at h

lemma parseSize_some {s sz u : List Char} (h : parseSize s = some (sz, u)) :
    s = sz ++ u ∧ (sz = ['-'] ∨ (sz ≠ [] ∧ ∀ x ∈ sz, isDigitC x = true)) := by
  cases s with
  | nil => simp [parseSize] at h
  | cons c cs =>
      by_cases hc : c = '-'
      · subst hc
        have he : parseSize ('-' :: cs) = some (['-'], cs) := by simp [parseSize]
        have h' := he.symm.trans h
        rw [Option.some.injEq, Prod.mk.injEq] at h'
        obtain ⟨h1, h2⟩ := h'
        subst h1
        subst h2
        exact ⟨rfl, Or.inl rfl⟩
      · rw [show parseSize (c :: cs) = tokP isDigitC (c :: cs) by
            simp [parseSize, hc]] at h
        obtain ⟨h1, h2, h3⟩ := tokP_some h
        exact ⟨h1, Or.inr ⟨h2, h3⟩⟩

lemma status3_some {s st u : List Char} (h : status3 s = some (st, u)) :
    s = st ++ u ∧ st.length = 3 ∧ ∀ x ∈ st, isDigitC x = true := by
  match s with
  | [] => simp [status3] at h
  | [a] => simp [status3] at h
  | [a, b] => simp [status3] at h
  | a :: b :: c :: t =>
    simp [status3] at h
    obtain ⟨⟨⟨ha, hb⟩, hc⟩, hst, hu⟩ := h
    subst hst
    subst hu
    refine ⟨rfl, rfl, ?_⟩
    intro x hx
    simp only [List.mem_cons, List.not_mem_nil] at hx
    rcases hx with h | h | h | h
    · exact h ▸ ha
    · exact h ▸ hb
    · exact h ▸ hc
    · cases h

lemma matchEnd_some {s : List Char} {st sz rf ag : List Char}
    (h : matchEnd s = some (st, sz, rf, ag)) :
    (∃ rest, s = ' ' :: (st ++ ' ' :: (sz ++ ' ' :: '"' ::
        (rf ++ '"' :: ' ' :: '"' :: (ag ++ '"' :: rest))))) ∧
    st.length = 3 ∧ (∀ x ∈ st, isDigitC x = true) ∧
    (sz = ['-'] ∨ (sz ≠ [] ∧ ∀ x ∈ sz, isDigitC x = true)) ∧
    (∀ x ∈ rf, noq x = true) ∧ (∀ x ∈ ag, noq x = true) := by
  unfold matchEnd at h
  simp only [Option.bind_eq_some] at h
  obtain ⟨t0, h0, pSt, hst, t2, h2, pSz, hps, t3, h3, t4, h4, t5, h5,
    t6, h6, t7, h7, t8, h8, hfin⟩ := h
  obtain ⟨stv, u0⟩ := pSt
  obtain ⟨szv, u1⟩ := pSz
  simp only [Option.some.injEq, Prod.mk.injEq] at hfin
  obtain ⟨hfst, hfsz, hfrf, hfag⟩ := hfin
  have hs : s = ' ' :: t0 := lit_some h0
  obtain ⟨hst1, hst2, hst3⟩ := status3_some hst
  obtain ⟨hps1, hps2⟩ := parseSize_some hps
  have h21 : u0 = ' ' :: t2 := lit_some h2
  have h31 : u1 = ' ' :: t3 := lit_some h3
  have h41 : t3 = '"' :: t4 := lit_some h4
  have h51 : t4.dropWhile noq = '"' :: t5 := lit_some h5
  have h61 : t5 = ' ' :: t6 := lit_some h6
  have h71 : t6 = '"' :: t7 := lit_some h7
  have h81 : t7.dropWhile noq = '"' :: t8 := lit_some h8
  have ht4 : t4 = t4.takeWhile noq ++ '"' :: t5 := by
    conv_lhs => rw [← List.takeWhile_append_dropWhile noq t4]
    rw [h51]
  have ht7 : t7 = t7.takeWhile noq ++ '"' :: t8 := by
    conv_lhs => rw [← List.takeWhile_append_dropWhile noq t7]
    rw [h81]
  refine ⟨⟨t8, ?_⟩, ?_, ?_, ?_, ?_, ?_⟩
  · rw [hs, hst1, h21, hps1, h31, h41, ht4, h61, h71, ht7,
      hfst, hfsz, hfrf, hfag]
  · rw [← hfst]; exact hst2
  · rw [← hfst]; exact hst3
  · rw [← hfsz]; exact hps2
  · rw [← hfrf]
    intro x hx
    exact List.mem_takeWhile_imp hx
  · rw [← hfag]
    intro x hx
    exact List.mem_takeWhile_imp hx

lemma protoLoop_some {R s : List Char} :
    ∀ {n : Nat} {pr : List Char}
      {q : List Char × List Char × List Char × List Char},
      protoLoop R s n = some (pr, q) →
      ∃ j, 1 ≤ j ∧ j ≤ n ∧ R[j]? = some '"' ∧ pr = R.take j ∧
        matchEnd (s.drop (j + 1)) = some q := by
  intro n
  induction n with
  | zero => intro pr q h; simp [protoLoop] at h
  | succ n ih =>
      intro pr q h
      unfold protoLoop at h
      by_cases hg : R[n + 1]? = some '"'
      · rw [if_pos hg] at h
        cases hme : matchEnd (s.drop (n + 2)) with
        | some q' =>
            rw [hme] at h
            simp only [Option.some.injEq, Prod.mk.injEq] at h
            obtain ⟨h1, h2⟩ := h
            exact ⟨n + 1, by omega, by omega, hg, h1.symm, by rw [hme, h2]⟩
        | none =>
            rw [hme] at h
            obtain ⟨j, hj1, hj2, hj3, hj4, hj5⟩ := ih h
            exact ⟨j, hj1, by omega, hj3, hj4, hj5⟩
      · rw [if_neg hg] at h
        obtain ⟨j, hj1, hj2, hj3, hj4, hj5⟩ := ih h
        exact ⟨j, hj1, by omega, hj3, hj4, hj5⟩

lemma matchHead_some {s0 i u rest : List Char}
    (h : matchHead s0 = some (i, u, rest)) :
    s0 = i ++ ' ' :: '-' :: ' ' :: (u ++ ' ' :: '[' :: rest) ∧
    nwsTok i = true ∧ nwsTok u = true := by
  unfold matchHead at h
  simp only [Option.bind_eq_some] at h
  obtain ⟨pIp, hIp, s1, h1, s2, h2, s3, h3, pUser, hU, s4, h4, s5, h5, hfin⟩ := h
  obtain ⟨iv, r1⟩ := pIp
  obtain ⟨uv, r2⟩ := pUser
  simp only [Option.some.injEq, Prod.mk.injEq] at hfin
  obtain ⟨hf1, hf2, hf3⟩ := hfin
  obtain ⟨hi1, hi2, hi3⟩ := tokP_some hIp
  obtain ⟨hu1, hu2, hu3⟩ := tokP_some hU
  have hr1 : r1 = ' ' :: s1 := lit_some h1
  have hr2 : s1 = '-' :: s2 := lit_some h2
  have hr3 : s2 = ' ' :: s3 := lit_some h3
  have hr4 : r2 = ' ' :: s4 := lit_some h4
  have hr5 : s4 = '[' :: s5 := lit_some h5
  refine ⟨?_, ?_, ?_⟩
  · rw [hi1, hr1, hr2, hr3, hu1, hr4, hr5]
    simp [hf1, hf2, hf3]
  · rw [← hf1]; exact (nwsTok_iff iv).2 ⟨hi2, hi3⟩
  · rw [← hf2]; exact (nwsTok_iff uv).2 ⟨hu2, hu3⟩

lemma matchMid_some {s5 d m rest : List Char}
    (h : matchMid s5 = some (d, m, rest)) :
    s5 = d ++ ']' :: ' ' :: '"' :: (m ++ ' ' :: rest) ∧
    d ≠ [] ∧ (∀ x ∈ d, nrb x = true) ∧ nwsTok m = true := by
  unfold matchMid at h
  simp only [Option.bind_eq_some] at h
  obtain ⟨pDate, hD, s6, h6, s7, h7, s8, h8, pMeth, hM, s9, h9, hfin⟩ := h
  obtain ⟨dv, r1⟩ := pDate
  obtain ⟨mv, r2⟩ := pMeth
  simp only [Option.some.injEq, Prod.mk.injEq] at hfin
  obtain ⟨hf1, hf2, hf3⟩ := hfin
  obtain ⟨hd1, hd2, hd3⟩ := tokP_some hD
  obtain ⟨hm1, hm2, hm3⟩ := tokP_some hM
  have hr6 : r1 = ']' :: s6 := lit_some h6
  have hr7 : s6 = ' ' :: s7 := lit_some h7
  have hr8 : s7 = '"' :: s8 := lit_some h8
  have hr9 : r2 = ' ' :: s9 := lit_some h9
  refine ⟨?_, ?_, ?_, ?_⟩
  · rw [hd1, hr6, hr7, hr8, hm1, hr9]
    simp [hf1, hf2, hf3]
  · rw [← hf1]; exact hd2
  · rw [← hf1]; exact hd3
  · rw [← hf2]; exact (nwsTok_iff mv).2 ⟨hm2, hm3⟩

lemma matchTail_some {s9 u pr st sz rf ag : List Char}
    (h : matchTail s9 = some (u, pr, st, sz, rf, ag)) :
    (∃ rest, s9 = u ++ ' ' :: (pr ++ '"' :: ' ' :: (st ++ ' ' :: (sz ++ ' ' :: '"' ::
        (rf ++ '"' :: ' ' :: '"' :: (ag ++ '"' :: rest)))))) ∧
    nwsTok u = true ∧ nwsTok pr = true ∧
    st.length = 3 ∧ (∀ x ∈ st, isDigitC x = true) ∧
    (sz = ['-'] ∨ (sz ≠ [] ∧ ∀ x ∈ sz, isDigitC x = true)) ∧
    (∀ x ∈ rf, noq x = true) ∧ (∀ x ∈ ag, noq x = true) := by
  unfold matchTail at h
  simp only [Option.bind_eq_some] at h
  obtain ⟨pUrl, hU, s10, h10, q0, hq, hfin⟩ := h
  obtain ⟨uv, r1⟩ := pUrl
  obtain ⟨prv, q⟩ := q0
  simp only [Option.some.injEq, Prod.mk.injEq] at hfin
  obtain ⟨hf1, hf2, hfq⟩ := hfin
  obtain ⟨hu1, hu2, hu3⟩ := tokP_some hU
  have h101 : r1 = ' ' :: s10 := lit_some h10
  obtain ⟨j, hj1, hj2, hj3, hj4, hj5⟩ := protoLoop_some hq
  have hjlt : j < (s10.takeWhile nws).length := by
    by_contra hge
    rw [List.getElem?_eq_none (by omega)] at hj3
    cases hj3
  have htR0 : s10.takeWhile nws <+: s10 := List.takeWhile_prefix nws
  obtain ⟨tR, htR⟩ := htR0
  have hj5' : matchEnd (s10.drop (j + 1)) = some (st, sz, rf, ag) := by
    rw [← hfq]; exact hj5
  obtain ⟨⟨restv, hrest⟩, hst1, hst2, hsz1, hrf1, hag1⟩ := matchEnd_some hj5'
  have hs10j : s10[j]? = some '"' := by
    conv_lhs => rw [← htR]
    rw [List.getElem?_append, if_pos hjlt]
    exact hj3
  obtain ⟨hjlt2, hget⟩ := List.getElem?_eq_some_iff.1 hs10j
  have htkj : s10.take j = (s10.takeWhile nws).take j := by
    conv_lhs => rw [← htR]
    rw [List.take_append_of_le_length (Nat.le_of_lt hjlt)]
  have hs10 : s10 = prv ++ '"' :: s10.drop (j + 1) := by
    conv_lhs => rw [← List.take_append_drop j s10]
    rw [List.drop_eq_getElem_cons hjlt2, hget, htkj, ← hj4]
  have hprv1 : prv ≠ [] := by
    rw [hj4]
    intro he
    have hlen0 := congrArg List.length he
    rw [List.length_take] at hlen0
    rcases Nat.min_eq_zero_iff.1 hlen0 with h0 | h0 <;> omega
  have hprv2 : ∀ x ∈ prv, nws x = true := by
    intro x hx
    rw [hj4] at hx
    exact List.mem_takeWhile_imp (List.mem_of_mem_take hx)
  refine ⟨⟨restv, ?_⟩, ?_, ?_, hst1, hst2, hsz1, hrf1, hag1⟩
  · rw [hu1, h101, hs10, hrest, hf1, hf2]
  · rw [← hf1]; exact (nwsTok_iff uv).2 ⟨hu2, hu3⟩
  · rw [← hf2]; exact (nwsTok_iff prv).2 ⟨hprv1, hprv2⟩

lemma isEmpty_false_of_ne {l : List Char} (h : l ≠ []) : l.isEmpty = false := by
  cases l with
  | nil => exact absurd rfl h
  | cons a as => rfl

lemma validB_intro {r : AccessRecord}
    (h1 : nwsTok r.ip = true) (h2 : nwsTok r.user = true)
    (h3 : r.date ≠ []) (h4 : ∀ x ∈ r.date, nrb x = true)
    (h5 : nwsTok r.method = true) (h6 : nwsTok r.url = true)
    (h7 : nwsTok r.protocol = true)
    (h8 : r.status.length = 3) (h9 : ∀ x ∈ r.status, isDigitC x = true)
    (h10 : r.size = ['-'] ∨ (r.size ≠ [] ∧ ∀ x ∈ r.size, isDigitC x = true))
    (h11 : ∀ x ∈ r.referrer, noq x = true) (h12 : ∀ x ∈ r.agent, noq x = true) :
    validB r = true := by
  simp only [validB, Bool.and_eq_true, Bool.or_eq_true, beq_iff_eq,
    Bool.not_eq_true', List.all_eq_true, Nat.beq_eq_true_eq]
  refine ⟨⟨⟨⟨⟨⟨⟨⟨⟨h1, h2⟩, ⟨isEmpty_false_of_ne h3, h4⟩⟩, h5⟩, h6⟩, h7⟩,
    ⟨h8, h9⟩⟩, ?_⟩, h11⟩, h12⟩
  rcases h10 with h | ⟨hne, hall⟩
  · exact Or.inl h
  · exact Or.inr ⟨isEmpty_false_of_ne hne, hall⟩

/-- Soundness of the anchored matcher: a successful match extracts fields
that satisfy the grammar's side conditions, and the consumed text, which is
exactly the rendering of the extracted record, is a prefix of the input. -/
lemma matchFrom_sound {s : List Char} {r : AccessRecord}
    (h : matchFrom s = some r) :
    validB r = true ∧ ∃ rest, s = render r ++ rest := by
  unfold matchFrom at h
  simp only [Option.bind_eq_some] at h
  obtain ⟨h3, hH, m3, hM, t6, hT, hfin⟩ := h
  obtain ⟨iv, uv, rest5⟩ := h3
  obtain ⟨dv, mv, rest9⟩ := m3
  obtain ⟨urlv, prv, stv, szv, rfv, agv⟩ := t6
  simp only [Option.some.injEq] at hfin
  obtain ⟨hs0, hiv, huv⟩ := matchHead_some hH
  have hM' : matchMid rest5 = some (dv, mv, rest9) := hM
  obtain ⟨hs5, hdne, hdall, hmv⟩ := matchMid_some hM'
  have hT' : matchTail rest9 = some (urlv, prv, stv, szv, rfv, agv) := hT
  obtain ⟨⟨restv, hs9⟩, hurl, hpr, hst1, hst2, hsz, hrf, hag⟩ := matchTail_some hT'
  subst hfin
  constructor
  · exact validB_intro hiv huv hdne hdall hmv hurl hpr hst1 hst2 hsz hrf hag
  · refine ⟨restv, ?_⟩
    rw [hs0, hs5, hs9]
    simp [render]

/-- Soundness of `search`: whatever record it produces satisfies the grammar
conditions and its rendering occurs as a contiguous substring of the input. -/
lemma search_sound {l : List Char} {r : AccessRecord} (h : search l = some r) :
    validB r = true ∧ render r <:+: l := by
  induction l with
  | nil =>
      have h' : matchFrom [] = some r := h
      obtain ⟨hv, rest, heq⟩ := matchFrom_sound h'
      obtain ⟨h1, h2⟩ := List.append_eq_nil.1 heq.symm
      rw [h1]
      exact ⟨hv, List.nil_infix⟩
  | cons c cs ih =>
      rw [search] at h
      cases hm : matchFrom (c :: cs) with
      | some r' =>
          rw [hm] at h
          simp only [Option.some.injEq] at h
          subst h
          obtain ⟨hv, rest, heq⟩ := matchFrom_sound hm
          exact ⟨hv, List.IsPrefix.isInfix ⟨rest, heq.symm⟩⟩
      | none =>
          rw [hm] at h
          obtain ⟨hv, hinf⟩ := ih h
          exact ⟨hv, List.infix_cons hinf⟩

/-- Completeness of `search`: if the pattern matches at any start position,
the search produces some record. -/
lemma search_complete {l : List Char} {r : AccessRecord} :
    ∀ {k : Nat}, matchFrom (l.drop k) = some r →
      ∃ rr, search l = some rr := by
  induction l with
  | nil =>
      intro k h
      rw [List.drop_nil] at h
      exact ⟨r, search_of_matchFrom _ _ h⟩
  | cons c cs ih =>
      intro k h
      cases k with
      | zero =>
          rw [List.drop_zero] at h
          exact ⟨r, search_of_matchFrom _ _ h⟩
      | succ k2 =>
          rw [List.drop_succ_cons] at h
          obtain ⟨rr, hrr⟩ := ih h
          cases hm : matchFrom (c :: cs) with
          | some r0 => exact ⟨r0, by rw [search, hm]⟩
          | none => exact ⟨rr, by rw [search, hm]; exact hrr⟩

lemma render_length (r : AccessRecord) : 19 ≤ (render r).length := by
  simp [render]
  omega

/-! ### Claim theorems for the parser (C1, C2, C9) -/

/-- A line that fully satisfies the §4.1 grammar except that extra text
precedes the grammatical part: the full line is not `render r` for any valid
`r`, yet `search` (as used by `parse_nginx_logs`) still produces a record. -/
def badLine : List Char := "x y - z [d] \"M U P\" 200 1 \"r\" \"a\"".data

/-- The record `LOG_PATTERN.search` extracts from `badLine` (match starts at
position 2). -/
def cexRec : AccessRecord :=
  { ip := "y".data, user := "z".data, date := "d".data, method := "M".data,
    url := "U".data, protocol := "P".data, status := "200".data,
    size := "1".data, referrer := "r".data, agent := "a".data }

/-- Claim C1 counterexample: `badLine` does not satisfy the §4.1 grammar
(no valid record renders to it — its first token is followed by ` y `, not
` - `), yet `parse` returns a record rather than `none`, because
`re.search` accepts a line whose proper substring matches the pattern. -/
theorem spec_c1_cex :
    (¬ ∃ r : AccessRecord, validB r = true ∧ render r = badLine) ∧
      search badLine = some cexRec := by
  constructor
  · rintro ⟨r, hv, he⟩
    have hip : nwsTok r.ip = true := by
      simp only [validB, Bool.and_eq_true] at hv
      exact hv.1.1.1.1.1.1.1.1.1
    obtain ⟨hne, hall⟩ := (nwsTok_iff r.ip).1 hip
    rcases hipc : r.ip with _ | ⟨a, _ | ⟨b, bs⟩⟩
    · exact hne hipc
    · have h2 : (render r)[2]? = badLine[2]? := by rw [he]
      rw [show badLine[2]? = some 'y' from rfl] at h2
      rw [show (render r)[2]? = some '-' by simp [render, hipc]] at h2
      simp at h2
    · have h1 : (render r)[1]? = badLine[1]? := by rw [he]
      rw [show badLine[1]? = some ' ' from rfl] at h1
      rw [show (render r)[1]? = some b by simp [render, hipc]] at h1
      simp only [Option.some.injEq] at h1
      have hbnws : nws b = true := hall b (by rw [hipc]; simp)
      rw [h1] at hbnws
      simp [nws, isWS] at hbnws
  · decide

/-- Claim C1 (amended): for every input line that contains no substring
conforming to the §4.1 grammar, `parse` returns `none` (it is a total
function, so no exception is possible), the line contributes nothing to the
entry list, and ingestion of the remaining lines continues unchanged. -/
theorem spec_c1 (line : List Char) (rest : List (List Char))
    (h : ∀ r : AccessRecord, validB r = true → ¬ render r <:+: line) :
    search line = none ∧
      (line :: rest).filterMap search = rest.filterMap search := by
  have hn : search line = none := by
    cases hs : search line with
    | none => rfl
    | some r =>
        obtain ⟨hv, hinf⟩ := search_sound hs
        exact absurd hinf (h r hv)
  exact ⟨hn, by simp [List.filterMap_cons, hn]⟩

theorem spec_c1_witness :
    (∀ r : AccessRecord, validB r = true → ¬ render r <:+: "hello".data) ∧
      (search "hello".data = none ∧
        ("hello".data :: ["x".data]).filterMap search
          = ["x".data].filterMap search) := by
  have h : ∀ r : AccessRecord, validB r = true → ¬ render r <:+: "hello".data := by
    intro r _ hinf
    have hl := hinf.length_le
    have h19 := render_length r
    have h5 : ("hello".data).length = 5 := rfl
    omega
  exact ⟨h, spec_c1 _ _ h⟩

/-- Claim C2: every line satisfying the §4.1 grammar is `render r` for a
valid record `r`; on it, `parse` succeeds and returns exactly the ten
matched groups verbatim, so rendering the returned record reproduces the
original line. -/
theorem spec_c2 (r : AccessRecord) (h : validB r = true) :
    search (render r) = some r ∧
      (search (render r)).map render = some (render r) := by
  have h1 : matchFrom (render r) = some r := by
    have h0 := matchFrom_render r [] h
    rwa [List.append_nil] at h0
  have h2 := search_of_matchFrom _ _ h1
  exact ⟨h2, by rw [h2]; rfl⟩

theorem spec_c2_witness :
    validB sampleRec = true ∧
      (search (render sampleRec) = some sampleRec ∧
        (search (render sampleRec)).map render = some (render sampleRec)) :=
  ⟨by decide, spec_c2 sampleRec (by decide)⟩

/-- Claim C9: parsing accepts any line that contains a grammar-conforming
substring: prepending and appending arbitrary text to a conforming line
still yields a record, and the produced record's fields come from a
substring of the line that matches the pattern (its rendering occurs
contiguously in the line and satisfies the grammar conditions). -/
theorem spec_c9 (r : AccessRecord) (pre suf : List Char) (h : validB r = true) :
    ∃ rr, search (pre ++ (render r ++ suf)) = some rr ∧ validB rr = true ∧
      render rr <:+: (pre ++ (render r ++ suf)) := by
  have hm : matchFrom ((pre ++ (render r ++ suf)).drop pre.length) = some r := by
    rw [List.drop_left]
    exact matchFrom_render r suf h
  obtain ⟨rr, hrr⟩ := search_complete hm
  obtain ⟨hv, hinf⟩ := search_sound hrr
  exact ⟨rr, hrr, hv, hinf⟩

theorem spec_c9_witness :
    ∃ rr, search ("junk ".data ++ (render sampleRec ++ " tail".data)) = some rr ∧
      validB rr = true ∧
      render rr <:+: ("junk ".data ++ (render sampleRec ++ " tail".data)) :=
  spec_c9 sampleRec ("junk ".data) (" tail".data) (by decide)

/-! ### The record store loader (`parse_nginx_logs`) -/

/-- The loading loop of `parse_nginx_logs`: each line is fed to
`LOG_PATTERN.search` and the group dictionary of a successful match is
appended; lines with no match are skipped silently. -/
def ingest : List (List Char) → List AccessRecord
  | [] => []
  | l :: ls =>
    match search l with
    | some r => r :: ingest ls
    | none => ingest ls

/-- Python `lines[-limit:]`: for a positive limit the last `limit` lines
(all of them when the file is shorter), but for `limit = 0` the slice
`[-0:]` equals `[0:]`, i.e. the whole list. -/
def lastSlice (lines : List (List Char)) (limit : Nat) : List (List Char) :=
  if limit = 0 then lines else lines.drop (lines.length - limit)

/-- `parse_nginx_logs`: the source is `none` when opening the file raises
`FileNotFoundError` (the handler prints a message and the function returns
the still-empty entry list). -/
def parse_nginx_logs (src : Option (List (List Char))) (limit : Nat) :
    List AccessRecord :=
  match src with
  | none => []
  | some lines => ingest (lastSlice lines limit)

/-- The startup check of `__main__`: `if not logs: ... exit(1)`. -/
def startup_fatal (logs : List AccessRecord) : Bool := logs.isEmpty

/-- Claim C3 counterexample: on a missing file the loader returns `[]` —
exactly the value it returns for a readable source with zero lines — so no
"source unavailable" signal distinguishable from an empty store exists in
its return value. -/
theorem spec_c3_cex :
    parse_nginx_logs none 500 = [] ∧ parse_nginx_logs (some []) 500 = [] ∧
      parse_nginx_logs none 500 = parse_nginx_logs (some []) 500 :=
  ⟨rfl, rfl, rfl⟩

/-- Claim C3 (amended): when the log source is unavailable the loader only
prints a console message and returns the empty store, the same value as for
a readable source with zero matched lines; a caller cannot tell the two
cases apart from the returned store, and `__main__` treats both as the same
fatal startup condition. -/
theorem spec_c3 (limit : Nat) :
    parse_nginx_logs none limit = [] ∧
      parse_nginx_logs none limit = parse_nginx_logs (some []) limit ∧
      startup_fatal (parse_nginx_logs none limit) = true ∧
      startup_fatal (parse_nginx_logs (some []) limit) = true := by
  have h : parse_nginx_logs (some []) limit = [] := by
    show ingest (lastSlice [] limit) = []
    unfold lastSlice
    split
    · rfl
    · rw [List.drop_nil]
      rfl
  exact ⟨rfl, h.symm, rfl, by rw [h]; rfl⟩

lemma ingest_eq_filterMap (ls : List (List Char)) :
    ingest ls = ls.filterMap search := by
  induction ls with
  | nil => rfl
  | cons l ls ih =>
      cases hs : search l with
      | some r => simp [ingest, hs, ih, List.filterMap_cons]
      | none => simp [ingest, hs, ih, List.filterMap_cons]

/-- Claim C5 counterexample: with `limit = 0`, Python's `lines[-0:]` is the
whole list, so a one-line source yields one record although the claim allows
at most `min(0, 1) = 0`. -/
theorem spec_c5_cex :
    (parse_nginx_logs (some [render sampleRec]) 0).length = 1 ∧
      ¬ (parse_nginx_logs (some [render sampleRec]) 0).length ≤
          min 0 [render sampleRec].length := by
  constructor
  · decide
  · decide

/-- Claim C5 (amended): for every positive limit `L` and source of `M`
lines, the loader parses exactly the last `L` lines (all of them when
`M ≤ L`) in order, keeping the successfully parsed ones, and returns at
most `min L M` records. -/
theorem spec_c5 (lines : List (List Char)) (L : Nat) (h : 1 ≤ L) :
    parse_nginx_logs (some lines) L
        = (lines.drop (lines.length - L)).filterMap search ∧
      (parse_nginx_logs (some lines) L).length ≤ min L lines.length := by
  have hsl : lastSlice lines L = lines.drop (lines.length - L) := by
    unfold lastSlice
    rw [if_neg (by omega)]
  have heq : parse_nginx_logs (some lines) L
      = (lines.drop (lines.length - L)).filterMap search := by
    show ingest (lastSlice lines L) = _
    rw [hsl, ingest_eq_filterMap]
  refine ⟨heq, ?_⟩
  rw [heq]
  have h1 := List.length_filterMap_le search (lines.drop (lines.length - L))
  rw [List.length_drop] at h1
  omega

theorem spec_c5_witness :
    (1 : Nat) ≤ 1 ∧
      (parse_nginx_logs (some [render sampleRec]) 1
          = ([render sampleRec].drop ([render sampleRec].length - 1)).filterMap search ∧
        (parse_nginx_logs (some [render sampleRec]) 1).length
          ≤ min 1 [render sampleRec].length) :=
  ⟨by decide, spec_c5 [render sampleRec] 1 (by decide)⟩

/-! ### Aggregation: the pandas `value_counts` model

`Series.value_counts()` counts with an insertion-ordered hash table (the
distinct values appear in first-seen order) and then sorts by count in
descending order; `to_dict()` keeps that order in an insertion-ordered
Python dict.  The sort is modelled as a stable insertion sort, so equal
counts stay in first-seen order. -/

/-- First-seen-order deduplication (the order in which the counting hash
table lists the distinct values). -/
def firstSeenAux (seen : List (List Char)) : List (List Char) → List (List Char)
  | [] => []
  | x :: xs =>
    if x ∈ seen then firstSeenAux seen xs else x :: firstSeenAux (x :: seen) xs

def firstSeen (l : List (List Char)) : List (List Char) := firstSeenAux [] l

/-- Number of occurrences of `v` in `l`. -/
def countV (v : List Char) (l : List (List Char)) : Nat :=
  (l.filter (fun x => decide (x = v))).length

/-- The counting step of `value_counts`: distinct values in first-seen
order, each with its multiplicity. -/
def grouping (l : List (List Char)) : List (List Char × Nat) :=
  (firstSeen l).map (fun v => (v, countV v l))

/-- Stable insertion into a count-descending list: the inserted pair stems
from an earlier position of the unsorted list, so it goes before the first
entry whose count does not exceed its own. -/
def insertDesc (x : List Char × Nat) :
    List (List Char × Nat) → List (List Char × Nat)
  | [] => [x]
  | y :: ys => if y.2 ≤ x.2 then x :: y :: ys else y :: insertDesc x ys

/-- Stable sort by count, descending. -/
def sortByCountDesc (l : List (List Char × Nat)) : List (List Char × Nat) :=
  l.foldr insertDesc []

/-- pandas `Series.value_counts().to_dict()` as an ordered association
list. -/
def value_counts (l : List (List Char)) : List (List Char × Nat) :=
  sortByCountDesc (grouping l)

/-- The summary dictionary of `generate_summary`. -/
structure Summary where
  total_requests : Nat
  status_counts : List (List Char × Nat)
  top_ips : List (List Char × Nat)
  top_urls : List (List Char × Nat)
deriving DecidableEq

/-- `generate_summary`. -/
def generate_summary (df : List AccessRecord) : Summary :=
  { total_requests := df.length
    status_counts := value_counts (df.map (fun r => r.status))
    top_ips := (value_counts (df.map (fun r => r.ip))).take 3
    top_urls := (value_counts (df.map (fun r => r.url))).take 3 }

/-- Python `str.startswith("5")`. -/
def startsWith5 (s : List Char) : Bool :=
  match s with
  | [] => false
  | c :: _ => c == '5'

/-- The 5xx counting inside `detect_anomalies`
(`df[df['status'].str.startswith('5')]['status'].value_counts()`). -/
def error_counts (df : List AccessRecord) : List (List Char × Nat) :=
  value_counts ((df.filter (fun r => startsWith5 r.status)).map (fun r => r.status))

/-- `detect_anomalies`: the empty dict when no 5xx status occurs, otherwise
the singleton dict `{"5xx_errors": error_counts}`. -/
def detect_anomalies (df : List AccessRecord) :
    List (List Char × List (List Char × Nat)) :=
  if (error_counts df).isEmpty then [] else [("5xx_errors".data, error_counts df)]

/-- The top-10 IP view of the table-display branch of the main loop
(`df['ip'].value_counts().head(10)`). -/
def top10_ips (df : List AccessRecord) : List (List Char × Nat) :=
  (value_counts (df.map (fun r => r.ip))).take 10

/-- The top-10 URL view of the table-display branch of the main loop. -/
def top10_urls (df : List AccessRecord) : List (List Char × Nat) :=
  (value_counts (df.map (fun r => r.url))).take 10

/-- Association-list lookup (dict access by key). -/
def alookup {β : Type} (k : List Char) : List (List Char × β) → Option β
  | [] => none
  | p :: ps => if p.1 = k then some p.2 else alookup k ps

/-- Position of an element in a list (used to state first-seen tie order). -/
def posIn : List (List Char × Nat) → (List Char × Nat) → Nat
  | [], _ => 0
  | x :: xs, a => if x = a then 0 else posIn xs a + 1

/-! ### Lemmas about the aggregation model -/

lemma mem_insertDesc {x y : List Char × Nat} {ys : List (List Char × Nat)} :
    y ∈ insertDesc x ys ↔ y = x ∨ y ∈ ys := by
  induction ys with
  | nil => simp [insertDesc]
  | cons z zs ih =>
      by_cases h : z.2 ≤ x.2
      · rw [insertDesc, if_pos h]
        simp [List.mem_cons]
      · rw [insertDesc, if_neg h]
        simp [List.mem_cons, ih]
        tauto

lemma insertDesc_perm (x : List Char × Nat) (ys : List (List Char × Nat)) :
    List.Perm (insertDesc x ys) (x :: ys) := by
  induction ys with
  | nil => exact List.Perm.refl _
  | cons z zs ih =>
      by_cases h : z.2 ≤ x.2
      · rw [insertDesc, if_pos h]
      · rw [insertDesc, if_neg h]
        exact (List.Perm.cons z ih).trans (List.Perm.swap x z zs)

lemma sortByCountDesc_perm (l : List (List Char × Nat)) :
    List.Perm (sortByCountDesc l) l := by
  induction l with
  | nil => exact List.Perm.refl _
  | cons x xs ih =>
      exact (insertDesc_perm x (sortByCountDesc xs)).trans (List.Perm.cons x ih)

lemma insertDesc_sorted {x : List Char × Nat} {ys : List (List Char × Nat)}
    (hs : ys.Pairwise (fun a b => b.2 ≤ a.2)) :
    (insertDesc x ys).Pairwise (fun a b => b.2 ≤ a.2) := by
  induction ys with
  | nil => simp [insertDesc]
  | cons z zs ih =>
      obtain ⟨hz, hzs⟩ := List.pairwise_cons.1 hs
      by_cases h : z.2 ≤ x.2
      · rw [insertDesc, if_pos h]
        refine List.pairwise_cons.2 ⟨?_, hs⟩
        intro b hb
        rcases List.mem_cons.1 hb with rfl | hb
        · exact h
        · exact Nat.le_trans (hz b hb) h
      · rw [insertDesc, if_neg h]
        refine List.pairwise_cons.2 ⟨?_, ih hzs⟩
        intro b hb
        rcases mem_insertDesc.1 hb with rfl | hb
        · omega
        · exact hz b hb

lemma sortByCountDesc_sorted (l : List (List Char × Nat)) :
    (sortByCountDesc l).Pairwise (fun a b => b.2 ≤ a.2) := by
  induction l with
  | nil => simp [sortByCountDesc]
  | cons x xs ih => exact insertDesc_sorted ih

lemma insertDesc_stable {P : List Char × Nat → List Char × Nat → Prop}
    {x : List Char × Nat} {ys : List (List Char × Nat)}
    (hys : ys.Pairwise (fun a b => P a b ∨ b.2 < a.2))
    (hx : ∀ y ∈ ys, P x y) :
    (insertDesc x ys).Pairwise (fun a b => P a b ∨ b.2 < a.2) := by
  induction ys with
  | nil => simp [insertDesc]
  | cons z zs ih =>
      obtain ⟨hz, hzs⟩ := List.pairwise_cons.1 hys
      by_cases h : z.2 ≤ x.2
      · rw [insertDesc, if_pos h]
        refine List.pairwise_cons.2 ⟨?_, hys⟩
        intro b hb
        rcases List.mem_cons.1 hb with rfl | hb
        · exact Or.inl (hx b (by simp))
        · exact Or.inl (hx b (by simp [hb]))
      · rw [insertDesc, if_neg h]
        refine List.pairwise_cons.2
          ⟨?_, ih hzs (fun y hy => hx y (by simp [hy]))⟩
        intro b hb
        rcases mem_insertDesc.1 hb with rfl | hb
        · exact Or.inr (by omega)
        · exact hz b hb

lemma sortByCountDesc_stable {P : List Char × Nat → List Char × Nat → Prop} :
    ∀ {l : List (List Char × Nat)}, l.Pairwise P →
      (sortByCountDesc l).Pairwise (fun a b => P a b ∨ b.2 < a.2) := by
  intro l
  induction l with
  | nil => intro _; simp [sortByCountDesc]
  | cons x xs ih =>
      intro hp
      obtain ⟨hx, hxs⟩ := List.pairwise_cons.1 hp
      exact insertDesc_stable (ih hxs)
        (fun y hy => hx y ((sortByCountDesc_perm xs).mem_iff.1 hy))

lemma firstSeenAux_mem {l : List (List Char)} :
    ∀ {seen : List (List Char)} {v : List Char},
      v ∈ firstSeenAux seen l ↔ v ∈ l ∧ v ∉ seen := by
  induction l with
  | nil => intro seen v; simp [firstSeenAux]
  | cons x xs ih =>
      intro seen v
      by_cases hx : x ∈ seen
      · rw [firstSeenAux, if_pos hx, ih]
        constructor
        · rintro ⟨h1, h2⟩
          exact ⟨List.mem_cons.2 (Or.inr h1), h2⟩
        · rintro ⟨h1, h2⟩
          rcases List.mem_cons.1 h1 with rfl | h1
          · exact absurd hx h2
          · exact ⟨h1, h2⟩
      · rw [firstSeenAux, if_neg hx]
        simp only [List.mem_cons, ih]
        constructor
        · rintro (rfl | ⟨h1, h2⟩)
          · exact ⟨Or.inl rfl, hx⟩
          · exact ⟨Or.inr h1, fun hs => h2 (Or.inr hs)⟩
        · rintro ⟨h1, h2⟩
          rcases h1 with rfl | h1
          · exact Or.inl rfl
          · by_cases hvx : v = x
            · exact Or.inl hvx
            · refine Or.inr ⟨h1, fun hs => ?_⟩
              rcases hs with h | h
              · exact hvx h
              · exact h2 h

lemma firstSeenAux_nodup (l : List (List Char)) :
    ∀ (seen : List (List Char)), (firstSeenAux seen l).Nodup := by
  induction l with
  | nil => intro seen; simp [firstSeenAux]
  | cons x xs ih =>
      intro seen
      by_cases hx : x ∈ seen
      · rw [firstSeenAux, if_pos hx]
        exact ih seen
      · rw [firstSeenAux, if_neg hx]
        refine List.nodup_cons.2 ⟨?_, ih (x :: seen)⟩
        intro hmem
        exact (firstSeenAux_mem.1 hmem).2 (List.mem_cons.2 (Or.inl rfl))

lemma firstSeen_mem {l : List (List Char)} {v : List Char} :
    v ∈ firstSeen l ↔ v ∈ l := by
  rw [firstSeen, firstSeenAux_mem]
  simp

lemma firstSeen_nodup (l : List (List Char)) : (firstSeen l).Nodup :=
  firstSeenAux_nodup l []

lemma countV_cons (v x : List Char) (l : List (List Char)) :
    countV v (x :: l) = (if x = v then 1 else 0) + countV v l := by
  by_cases h : x = v
  · simp [countV, List.filter_cons, h, Nat.add_comm]
  · simp [countV, List.filter_cons, h]

lemma countV_pos_iff {v : List Char} {l : List (List Char)} :
    v ∈ l ↔ 1 ≤ countV v l := by
  induction l with
  | nil => simp [countV]
  | cons x xs ih =>
      rw [countV_cons]
      by_cases h : x = v
      · subst h
        simp
      · rw [if_neg h]
        simp only [Nat.zero_add, List.mem_cons]
        constructor
        · rintro (rfl | hm)
          · exact absurd rfl h
          · exact ih.1 hm
        · intro hc
          exact Or.inr (ih.2 hc)

lemma grouping_mem {l : List (List Char)} {v : List Char} {n : Nat} :
    (v, n) ∈ grouping l ↔ v ∈ l ∧ n = countV v l := by
  rw [grouping]
  constructor
  · intro h
    obtain ⟨u, hu, he⟩ := List.mem_map.1 h
    have he1 : u = v := congrArg Prod.fst he
    have he2 : countV u l = n := congrArg Prod.snd he
    subst he1
    exact ⟨firstSeen_mem.1 hu, he2.symm⟩
  · rintro ⟨h1, rfl⟩
    exact List.mem_map.2 ⟨v, firstSeen_mem.2 h1, rfl⟩

lemma grouping_keys (l : List (List Char)) :
    (grouping l).map Prod.fst = firstSeen l := by
  rw [grouping, List.map_map]
  exact List.map_id _

lemma grouping_keys_nodup (l : List (List Char)) :
    ((grouping l).map Prod.fst).Nodup := by
  rw [grouping_keys]
  exact firstSeen_nodup l

lemma alookup_eq_some_iff {β : Type} {m : List (List Char × β)}
    {k : List Char} {b : β} (hn : (m.map Prod.fst).Nodup) :
    alookup k m = some b ↔ (k, b) ∈ m := by
  induction m with
  | nil => simp [alookup]
  | cons p ps ih =>
      rw [List.map_cons, List.nodup_cons] at hn
      obtain ⟨hp, hps⟩ := hn
      by_cases hk : p.1 = k
      · rw [alookup, if_pos hk]
        simp only [Option.some.injEq, List.mem_cons]
        constructor
        · rintro rfl
          exact Or.inl (Prod.ext hk.symm rfl)
        · rintro (h | h)
          · exact (congrArg Prod.snd h).symm
          · exact absurd (hk ▸ List.mem_map.2 ⟨(k, b), h, rfl⟩) hp
      · rw [alookup, if_neg hk]
        rw [ih hps]
        simp only [List.mem_cons]
        constructor
        · exact Or.inr
        · rintro (h | h)
          · exact absurd (congrArg Prod.fst h).symm hk
          · exact h

lemma alookup_eq_none_iff {β : Type} {m : List (List Char × β)}
    {k : List Char} :
    alookup k m = none ↔ k ∉ m.map Prod.fst := by
  induction m with
  | nil => simp [alookup]
  | cons p ps ih =>
      by_cases hk : p.1 = k
      · rw [alookup, if_pos hk]
        constructor
        · intro h
          exact Option.noConfusion h
        · intro h
          exact (h (List.mem_cons.2 (Or.inl hk.symm))).elim
      · rw [alookup, if_neg hk]
        rw [ih]
        simp only [List.map_cons, List.mem_cons]
        constructor
        · rintro h hc
          rcases hc with h1 | h1
          · exact hk h1.symm
          · exact h h1
        · intro h hc
          exact h (Or.inr hc)

lemma alookup_perm {β : Type} {m₁ m₂ : List (List Char × β)}
    (h : List.Perm m₁ m₂) (hn : (m₁.map Prod.fst).Nodup) (k : List Char) :
    alookup k m₁ = alookup k m₂ := by
  have hn2 : (m₂.map Prod.fst).Nodup := ((h.map Prod.fst).nodup_iff).1 hn
  cases h1 : alookup k m₁ with
  | some b =>
      have hm := (alookup_eq_some_iff hn).1 h1
      exact ((alookup_eq_some_iff hn2).2 (h.mem_iff.1 hm)).symm
  | none =>
      have hm := alookup_eq_none_iff.1 h1
      refine (alookup_eq_none_iff.2 ?_).symm
      intro hc
      exact hm ((h.map Prod.fst).mem_iff.2 hc)

/-- The central lookup property of the `value_counts` model: the resulting
dict maps exactly the values occurring in the input to their occurrence
counts. -/
lemma alookup_value_counts (l : List (List Char)) (v : List Char) :
    alookup v (value_counts l)
      = if v ∈ l then some (countV v l) else none := by
  have hperm := sortByCountDesc_perm (grouping l)
  have hn := grouping_keys_nodup l
  have hn1 : ((value_counts l).map Prod.fst).Nodup :=
    ((hperm.map Prod.fst).nodup_iff).2 hn
  rw [value_counts, alookup_perm hperm hn1 v]
  by_cases hv : v ∈ l
  · rw [if_pos hv]
    exact (alookup_eq_some_iff hn).2 (grouping_mem.2 ⟨hv, rfl⟩)
  · rw [if_neg hv]
    refine alookup_eq_none_iff.2 ?_
    rw [grouping_keys]
    intro hc
    exact hv (firstSeen_mem.1 hc)

lemma pairwise_posIn {l : List (List Char × Nat)} (h : l.Nodup) :
    l.Pairwise (fun a b => posIn l a < posIn l b) := by
  induction l with
  | nil => simp
  | cons x xs ih =>
      obtain ⟨hx, hxs⟩ := List.nodup_cons.1 h
      refine List.pairwise_cons.2 ⟨?_, ?_⟩
      · intro b hb
        have hbx : x ≠ b := fun he => hx (he ▸ hb)
        rw [posIn, if_pos rfl, posIn, if_neg hbx]
        omega
      · refine (ih hxs).imp_of_mem ?_
        intro a b ha hb hab
        have hax : x ≠ a := fun he => hx (he ▸ ha)
        have hbx : x ≠ b := fun he => hx (he ▸ hb)
        rw [posIn, if_neg hax, posIn, if_neg hbx]
        omega

lemma grouping_nodup (l : List (List Char)) : (grouping l).Nodup :=
  List.Nodup.of_map Prod.fst (grouping_keys_nodup l)

lemma value_counts_sorted (l : List (List Char)) :
    (value_counts l).Pairwise (fun a b => b.2 ≤ a.2) :=
  sortByCountDesc_sorted (grouping l)

/-- Stability of `value_counts`: any two entries appear either in strictly
descending count order or, on a count tie, in first-seen order of the value
(their order in `grouping`). -/
lemma value_counts_stable (l : List (List Char)) :
    (value_counts l).Pairwise
      (fun a b => posIn (grouping l) a < posIn (grouping l) b ∨ b.2 < a.2) :=
  sortByCountDesc_stable (pairwise_posIn (grouping_nodup l))

lemma value_counts_eq_nil_iff (l : List (List Char)) :
    value_counts l = [] ↔ l = [] := by
  constructor
  · intro h
    cases hl : l with
    | nil => rfl
    | cons x xs =>
        have hm : x ∈ firstSeen l := firstSeen_mem.2 (by rw [hl]; simp)
        have hg : (x, countV x l) ∈ grouping l := grouping_mem.2 ⟨by rw [hl]; simp, rfl⟩
        have := (sortByCountDesc_perm (grouping l)).symm.mem_iff.1 hg
        rw [value_counts] at h
        rw [h] at this
        cases this
  · intro h
    rw [h]
    rfl

/-- Every view that takes a prefix of `value_counts` is count-descending,
dominates every dropped entry, and keeps ties in first-seen order. -/
lemma take_view_props (l : List (List Char)) (k : Nat) :
    ((value_counts l).take k).Pairwise (fun a b => b.2 ≤ a.2) ∧
      (∀ a ∈ (value_counts l).take k, ∀ b ∈ (value_counts l).drop k, b.2 ≤ a.2) ∧
      ((value_counts l).take k).Pairwise
        (fun a b => posIn (grouping l) a < posIn (grouping l) b ∨ b.2 < a.2) := by
  have hs := value_counts_sorted l
  refine ⟨List.Pairwise.sublist (List.take_sublist k _) hs, ?_,
    List.Pairwise.sublist (List.take_sublist k _) (value_counts_stable l)⟩
  have hsplit := hs
  rw [← List.take_append_drop k (value_counts l), List.pairwise_append] at hsplit
  exact hsplit.2.2

/-- A helper record constructor for the concrete stores used in the
counterexamples and witnesses. -/
def mkRec (i st u : List Char) : AccessRecord :=
  { ip := i, user := "-".data, date := "d".data, method := "GET".data,
    url := u, protocol := "HTTP/1.1".data, status := st, size := "1".data,
    referrer := "-".data, agent := "-".data }

/-- The store of the C4 scenario: statuses `500`, `500`, `503`. -/
def store3 : List AccessRecord :=
  [mkRec "a".data "500".data "/x".data,
   mkRec "b".data "500".data "/y".data,
   mkRec "c".data "503".data "/z".data]

/-- Claim C4 counterexample: on the `500, 500, 503` store the dictionary
returned by `detect_anomalies` is not keyed by status codes at all — its
single key is `"5xx_errors"`, under which the status-to-count mapping is
nested. -/
theorem spec_c4_cex :
    (detect_anomalies store3).map Prod.fst ≠ ["500".data, "503".data] ∧
      (detect_anomalies store3).map Prod.fst = ["5xx_errors".data] := by
  constructor
  · decide
  · decide

/-- Claim C4 (amended): with zero 5xx-prefixed statuses `detect_anomalies`
returns the empty dict (not an error, not null); otherwise it returns the
singleton dict `{"5xx_errors": m}` whose nested mapping `m` is the 5xx
status-to-count mapping; on the `500, 500, 503` store the nested mapping is
`{"500": 2, "503": 1}`. -/
theorem spec_c4 (df : List AccessRecord) :
    ((∀ r ∈ df, startsWith5 r.status = false) → detect_anomalies df = []) ∧
      ((∃ r ∈ df, startsWith5 r.status = true) →
        detect_anomalies df = [("5xx_errors".data, error_counts df)]) ∧
      detect_anomalies store3
        = [("5xx_errors".data, [("500".data, 2), ("503".data, 1)])] := by
  refine ⟨?_, ?_, by decide⟩
  · intro h
    have hfl : df.filter (fun r => startsWith5 r.status) = [] := by
      rw [List.filter_eq_nil_iff]
      intro r hr
      rw [h r hr]
      exact Bool.false_ne_true
    rw [detect_anomalies, error_counts, hfl]
    rfl
  · rintro ⟨r, hr, h5⟩
    have hmem : r.status ∈ (df.filter (fun r => startsWith5 r.status)).map
        (fun r => r.status) :=
      List.mem_map.2 ⟨r, List.mem_filter.2 ⟨hr, h5⟩, rfl⟩
    have hne : (df.filter (fun r => startsWith5 r.status)).map
        (fun r => r.status) ≠ [] := List.ne_nil_of_mem hmem
    have hvc : error_counts df ≠ [] := by
      rw [error_counts]
      intro hc
      exact hne ((value_counts_eq_nil_iff _).1 hc)
    rw [detect_anomalies, if_neg (by rwa [Ne, ← List.isEmpty_iff] at hvc)]

theorem spec_c4_witness :
    detect_anomalies [] = [] ∧
      detect_anomalies store3 = [("5xx_errors".data, error_counts store3)] :=
  ⟨(spec_c4 []).1 (fun r hr => absurd hr (List.not_mem_nil r)),
   (spec_c4 store3).2.1
     ⟨mkRec "a".data "500".data "/x".data, by simp [store3], by decide⟩⟩

/-- The store of the C6 counterexample: one `404` then one `200`, a count
tie. -/
def dfTie : List AccessRecord :=
  [mkRec "i1".data "404".data "/a".data,
   mkRec "i2".data "200".data "/b".data]

/-- Claim C6 counterexample: on a store with statuses `404` then `200`
(both once), `status_counts` lists `404` first — ties are broken by
first-seen order, not by ascending status code value as claimed. -/
theorem spec_c6_cex :
    (generate_summary dfTie).status_counts
        = [("404".data, 1), ("200".data, 1)] ∧
      (generate_summary dfTie).status_counts
        ≠ [("200".data, 1), ("404".data, 1)] := by
  constructor
  · decide
  · decide

/-- Claim C6 (amended): `status_counts` groups by the exact status string —
it maps exactly the statuses occurring in the store to their occurrence
counts — and lists them in descending order of count, with ties between
equal counts broken by first-seen order of the status in the store (the
order of `grouping`), not by ascending code value. -/
theorem spec_c6 (df : List AccessRecord) :
    ((generate_summary df).status_counts).Pairwise (fun a b => b.2 ≤ a.2) ∧
      ((generate_summary df).status_counts).Pairwise
        (fun a b => posIn (grouping (df.map (fun r => r.status))) a
            < posIn (grouping (df.map (fun r => r.status))) b ∨ b.2 < a.2) ∧
      ∀ v : List Char,
        alookup v ((generate_summary df).status_counts)
          = if v ∈ df.map (fun r => r.status)
            then some (countV v (df.map (fun r => r.status))) else none := by
  refine ⟨value_counts_sorted _, value_counts_stable _, ?_⟩
  intro v
  exact alookup_value_counts _ v

/-- Claim C7: the `top_ips`/`top_urls` views are the top 3 `clientAddress`/
`url` groups and the table-display views the top 10, all by count
descending: each kept entry's count is at least every dropped entry's
count, kept entries are listed count-descending, and ties are broken by
first-seen order in the store. -/
theorem spec_c7 (df : List AccessRecord) :
    (((generate_summary df).top_ips).Pairwise (fun a b => b.2 ≤ a.2) ∧
      (∀ a ∈ (generate_summary df).top_ips,
        ∀ b ∈ (value_counts (df.map (fun r => r.ip))).drop 3, b.2 ≤ a.2) ∧
      ((generate_summary df).top_ips).Pairwise
        (fun a b => posIn (grouping (df.map (fun r => r.ip))) a
            < posIn (grouping (df.map (fun r => r.ip))) b ∨ b.2 < a.2)) ∧
    (((generate_summary df).top_urls).Pairwise (fun a b => b.2 ≤ a.2) ∧
      (∀ a ∈ (generate_summary df).top_urls,
        ∀ b ∈ (value_counts (df.map (fun r => r.url))).drop 3, b.2 ≤ a.2) ∧
      ((generate_summary df).top_urls).Pairwise
        (fun a b => posIn (grouping (df.map (fun r => r.url))) a
            < posIn (grouping (df.map (fun r => r.url))) b ∨ b.2 < a.2)) ∧
    ((top10_ips df).Pairwise (fun a b => b.2 ≤ a.2) ∧
      (∀ a ∈ top10_ips df,
        ∀ b ∈ (value_counts (df.map (fun r => r.ip))).drop 10, b.2 ≤ a.2) ∧
      (top10_ips df).Pairwise
        (fun a b => posIn (grouping (df.map (fun r => r.ip))) a
            < posIn (grouping (df.map (fun r => r.ip))) b ∨ b.2 < a.2)) ∧
    ((top10_urls df).Pairwise (fun a b => b.2 ≤ a.2) ∧
      (∀ a ∈ top10_urls df,
        ∀ b ∈ (value_counts (df.map (fun r => r.url))).drop 10, b.2 ≤ a.2) ∧
      (top10_urls df).Pairwise
        (fun a b => posIn (grouping (df.map (fun r => r.url))) a
            < posIn (grouping (df.map (fun r => r.url))) b ∨ b.2 < a.2)) := by
  have h1 := take_view_props (df.map (fun r => r.ip)) 3
  have h2 := take_view_props (df.map (fun r => r.url)) 3
  have h3 := take_view_props (df.map (fun r => r.ip)) 10
  have h4 := take_view_props (df.map (fun r => r.url)) 10
  exact ⟨h1, h2, h3, h4⟩

lemma countV_filter_statuses (df : List AccessRecord) (v : List Char)
    (h5 : startsWith5 v = true) :
    countV v ((df.filter (fun r => startsWith5 r.status)).map (fun r => r.status))
      = countV v (df.map (fun r => r.status)) := by
  induction df with
  | nil => rfl
  | cons r df ih =>
      by_cases hp : startsWith5 r.status = true
      · simp [List.filter_cons, hp, countV_cons, ih]
      · have hne : r.status ≠ v := by
          intro he
          rw [he, h5] at hp
          exact hp rfl
        simp [List.filter_cons, hp, countV_cons, ih, hne]

/-- Claim C10: the anomaly view agrees with the summary.  For every status
code starting with `5`, the count in the (nested) mapping of
`detect_anomalies` equals the count `status_counts` reports for that code
(both `none` when the code does not occur), and the 5xx mapping reports
only codes starting with `5`. -/
theorem spec_c10 (df : List AccessRecord) (v : List Char)
    (h5 : startsWith5 v = true) :
    alookup v (error_counts df)
        = alookup v ((generate_summary df).status_counts) ∧
      ∀ p ∈ error_counts df, startsWith5 p.1 = true := by
  constructor
  · have h1 : (generate_summary df).status_counts
        = value_counts (df.map (fun r => r.status)) := rfl
    rw [h1, error_counts, alookup_value_counts, alookup_value_counts,
      countV_filter_statuses df v h5]
    by_cases hv : v ∈ df.map (fun r => r.status)
    · rw [if_pos hv, if_pos]
      rw [countV_pos_iff, ← countV_filter_statuses df v h5, ← countV_pos_iff]
        at hv
      exact hv
    · rw [if_neg hv, if_neg]
      intro hc
      rw [countV_pos_iff, countV_filter_statuses df v h5, ← countV_pos_iff]
        at hc
      exact hv hc
  · intro p hp
    have hg : p ∈ grouping ((df.filter (fun r => startsWith5 r.status)).map
        (fun r => r.status)) :=
      (sortByCountDesc_perm _).mem_iff.1 hp
    obtain ⟨u, hu, he⟩ := List.mem_map.1 hg
    have hul : u ∈ (df.filter (fun r => startsWith5 r.status)).map
        (fun r => r.status) := firstSeen_mem.1 hu
    obtain ⟨r, hrf, hre⟩ := List.mem_map.1 hul
    have h5r : startsWith5 r.status = true := (List.mem_filter.1 hrf).2
    have hp1 : p.1 = u := (congrArg Prod.fst he).symm
    rw [hp1, ← hre]
    exact h5r

theorem spec_c10_witness :
    alookup ("500".data) (error_counts store3)
        = alookup ("500".data) ((generate_summary store3).status_counts) ∧
      ∀ p ∈ error_counts store3, startsWith5 p.1 = true :=
  spec_c10 store3 ("500".data) (by decide)

/-! ### The query dispatcher (C8) -/

/-- Python's substring operator `needle in haystack`. -/
def containsSub : List Char → List Char → Bool
  | [], n => n.isPrefixOf []
  | c :: t, n => n.isPrefixOf (c :: t) || containsSub t n

/-- `corrected_q.lower()`, character-wise ASCII lowercasing. -/
def lowerStr (q : List Char) : List Char := q.map Char.toLower

/-- The keyword list of the table-display condition in the main loop. -/
def keywords : List (List Char) :=
  ["status".data, "ip".data, "url".data, "table".data, "top".data]

/-- The anomaly-display condition of the main loop:
`"anomaly" in corrected_q.lower()`. -/
def displayAnomalies (q : List Char) : Bool :=
  containsSub (lowerStr q) ("anomaly".data)

/-- The table-display condition of the main loop:
`any(word in corrected_q.lower() for word in [...])`. -/
def displayTables (q : List Char) : Bool :=
  keywords.any (fun w => containsSub (lowerStr q) w)

lemma containsSub_correct (hay needle : List Char) :
    containsSub hay needle = true ↔ needle <:+: hay := by
  induction hay with
  | nil =>
      simp [containsSub, List.isPrefixOf_iff_prefix]
  | cons c t ih =>
      rw [containsSub, Bool.or_eq_true, List.isPrefixOf_iff_prefix, ih,
        List.infix_cons_iff]

/-- Claim C8: `displayAnomalies` is true exactly when the lower-cased
normalized question contains the substring `"anomaly"`, and
`displayTables` is true exactly when it contains one of `"status"`,
`"ip"`, `"url"`, `"table"`, `"top"`; each flag is a function of the
question alone, so the two are decided independently. -/
theorem spec_c8 (q : List Char) :
    (displayAnomalies q = true ↔ "anomaly".data <:+: lowerStr q) ∧
      (displayTables q = true ↔ ∃ w ∈ keywords, w <:+: lowerStr q) := by
  constructor
  · exact containsSub_correct (lowerStr q) ("anomaly".data)
  · rw [displayTables, List.any_eq_true]
    constructor
    · rintro ⟨w, hw, hc⟩
      exact ⟨w, hw, (containsSub_correct _ _).1 hc⟩
    · rintro ⟨w, hw, hinf⟩
      exact ⟨w, hw, (containsSub_correct _ _).2 hinf⟩

example : displayTables "show me the top status codes".data = true ∧
    displayAnomalies "show me the top status codes".data = false := by decide

example : displayAnomalies "any anomaly today?".data = true := by decide

end NginxLogChat
